import Mathlib

/-!
# Verification of the RAG subsystem of `ai-blockchain-assistant`

Shallow embedding of `src/crates/shared/src/rag.rs` (struct `RAGSystem`:
`tokenize`, `build_index`, `search`, `add_document`, `get_document_by_id`)
and of the façade `src/crates/mcp-server/src/rag_service.rs`
(`RAGService::search_documents`, `RAGService::get_document`).

Modelling conventions:
* `f32` scores are modelled by `ℝ`; the natural logarithm `ln` is `Real.log`.
* The `HashMap`s (`index : HashMap<String, Vec<usize>>` and the per-search
  `scores : HashMap<usize, f32>`) are modelled as association lists with
  unique keys.  Hash-iteration order is unspecified in Rust; the embedding
  fixes first-insertion order.  All verified properties are independent of
  that order.
* Rust `usize` document positions are `Nat` (no overflow is reachable:
  positions are list indices).
* The `embedding : Option<Vec<f32>>` field of `Document` is always `None`
  on every code path of the repository and is omitted.
* Unicode `to_lowercase` / `is_alphanumeric` are modelled by Lean's
  `Char.toLower` / `Char.isAlphanum`.
* The indexing `self.documents[doc_idx]` in `search` (which panics when out
  of bounds) and the `partial_cmp(..).unwrap()` in the sort comparator are
  modelled by an `Option`-valued `search`: `none` models a panic.  In the
  real-valued model the comparator itself is total.
-/

namespace RAG

/-- `Document` from `rag.rs` (the always-`None` `embedding` field omitted). -/
structure Document where
  id : String
  title : String
  content : String
  source : String
deriving Repr, DecidableEq

/-- `SearchResult` from `rag.rs`; the `f32` score is modelled by `ℝ`. -/
structure SearchResult where
  document : Document
  score : ℝ

/-- The inverted index `HashMap<String, Vec<usize>>` as an association list
with unique keys (key order models hash-map insertion order). -/
abbrev Index := List (String × List Nat)

/-- The in-memory state of `RAGSystem` (the `data_dir` path only feeds the
initial document load and is not part of the verified state). -/
structure RAGSystem where
  documents : List Document
  index : Index

/-- `RAGSystem::tokenize`: lowercase, split on any non-alphanumeric
character, drop empty segments. -/
def tokenize (text : String) : List String :=
  (((text.toList.map Char.toLower).splitOnP fun c => !c.isAlphanum).map
      fun cs => String.mk cs).filter fun s => !s.isEmpty

/-- `self.index.entry(word).or_insert_with(Vec::new).push(doc_idx)`:
append `docIdx` to the posting list of `word`, creating the entry if it is
absent. -/
def insertPosting (docIdx : Nat) (word : String) : Index → Index
  | [] => [(word, [docIdx])]
  | (k, ps) :: rest =>
    if k = word then (k, ps ++ [docIdx]) :: rest
    else (k, ps) :: insertPosting docIdx word rest

/-- The `for word in words { ... push(doc_idx) }` loop shared by
`build_index` and `add_document`. -/
def indexWords (docIdx : Nat) (words : List String) (ix : Index) : Index :=
  words.foldl (fun acc w => insertPosting docIdx w acc) ix

/-- `RAGSystem::build_index`: index every stored document's content at its
position. -/
def build_index (docs : List Document) : Index :=
  docs.enum.foldl (fun acc p => indexWords p.1 (tokenize p.2.content) acc) []

/-- `self.index.get(&token)`. -/
def lookupIdx (ix : Index) (word : String) : Option (List Nat) :=
  (ix.find? fun e => e.1 == word).map Prod.snd

/-- `RAGSystem::new` after the initial directory load: the state whose
document store is `docs` and whose index is built by `build_index`. -/
def RAGSystem.ofDocuments (docs : List Document) : RAGSystem :=
  ⟨docs, build_index docs⟩

/-- `RAGSystem::add_document`: append the document, then index its content
at position `documents.len() - 1`. -/
def RAGSystem.add_document (r : RAGSystem) (title content source : String) :
    RAGSystem :=
  let id := source ++ "/" ++ title
  let doc : Document := ⟨id, title, content, source⟩
  let documents := r.documents ++ [doc]
  let doc_idx := documents.length - 1
  ⟨documents, indexWords doc_idx (tokenize content) r.index⟩

/-- `RAGSystem::get_document_by_id`: first-match linear scan in insertion
order. -/
def RAGSystem.get_document_by_id (r : RAGSystem) (id : String) :
    Option Document :=
  r.documents.find? fun doc => doc.id == id

/-- The IDF weight computed by `search`:
`(self.documents.len() as f32 / doc_indices.len() as f32).ln()`. -/
noncomputable def idf (nDocs nPostings : Nat) : ℝ :=
  Real.log ((nDocs : ℝ) / (nPostings : ℝ))

/-- `let entry = scores.entry(doc_idx).or_insert(0.0); *entry += idf;` on the
association-list model of the `scores` map. -/
noncomputable def addScore (docIdx : Nat) (v : ℝ) :
    List (Nat × ℝ) → List (Nat × ℝ)
  | [] => [(docIdx, 0 + v)]
  | (q, s) :: rest =>
    if q = docIdx then (q, s + v) :: rest
    else (q, s) :: addScore docIdx v rest

/-- The body of the score-accumulation loop of `search`: for one query
token, if it has a posting list, add its IDF to every listed position's
entry. -/
noncomputable def scoreStep (r : RAGSystem) (scores : List (Nat × ℝ))
    (token : String) : List (Nat × ℝ) :=
  match lookupIdx r.index token with
  | none => scores
  | some doc_indices =>
    doc_indices.foldl
      (fun sc i => addScore i (idf r.documents.length doc_indices.length) sc)
      scores

/-- The score-accumulation loop of `search` over all query tokens. -/
noncomputable def accumulateScores (r : RAGSystem) (tokens : List String) :
    List (Nat × ℝ) :=
  tokens.foldl (scoreStep r) []

/-- `scores.into_iter().map(|(doc_idx, score)| SearchResult { document:
self.documents[doc_idx].clone(), score })`: `none` models the panic of the
out-of-bounds indexing. -/
noncomputable def toResults (docs : List Document) :
    List (Nat × ℝ) → Option (List SearchResult)
  | [] => some []
  | e :: rest =>
    match docs.get? e.1, toResults docs rest with
    | some d, some acc => some (⟨d, e.2⟩ :: acc)
    | _, _ => none

/-- The sort order of `results.sort_by(|a, b|
b.score.partial_cmp(&a.score).unwrap())`: descending by score. -/
def scoreGE (a b : SearchResult) : Prop := b.score ≤ a.score

noncomputable instance : DecidableRel scoreGE :=
  fun a b => Real.decidableLE b.score a.score

instance : IsTotal SearchResult scoreGE := ⟨fun a b => le_total b.score a.score⟩

instance : IsTrans SearchResult scoreGE := ⟨fun _ _ _ h1 h2 => le_trans h2 h1⟩

/-- `RAGSystem::search`: accumulate scores, materialise results, sort
descending by score, truncate to `limit`. -/
noncomputable def RAGSystem.search (r : RAGSystem) (query : String)
    (limit : Nat) : Option (List SearchResult) :=
  match toResults r.documents (accumulateScores r (tokenize query)) with
  | none => none
  | some results => some ((results.insertionSort scoreGE).take limit)

/-- `DocumentQuery` from `shared/src/lib.rs`. -/
structure DocumentQuery where
  query : String
  limit : Nat
  source : Option String

/-- `DocumentResult` from `shared/src/lib.rs`. -/
structure DocumentResult where
  id : String
  title : String
  content : String
  source : String
  score : ℝ

/-- `RAGService::search_documents` from `rag_service.rs`: delegate to
`RAGSystem::search` with `query.query` and `query.limit` (the `source`
field of the query is never read) and repackage each result. -/
noncomputable def RAGService.search_documents (r : RAGSystem)
    (q : DocumentQuery) : Option (List DocumentResult) :=
  (r.search q.query q.limit).map
    (List.map fun res =>
      ⟨res.document.id, res.document.title, res.document.content,
        res.document.source, res.score⟩)

/-- `RAGService::get_document` from `rag_service.rs`: wrap
`get_document_by_id` with the fixed score `1.0`. -/
noncomputable def RAGService.get_document (r : RAGSystem) (id : String) :
    Option DocumentResult :=
  match r.get_document_by_id id with
  | some doc => some ⟨doc.id, doc.title, doc.content, doc.source, 1.0⟩
  | none => none

/-- The states reachable by construction (`new` = load + `build_index`)
followed by any sequence of `add_document` calls. -/
inductive Reachable : RAGSystem → Prop
  | init (docs : List Document) : Reachable (RAGSystem.ofDocuments docs)
  | add (r : RAGSystem) (title content source : String) :
      Reachable r → Reachable (r.add_document title content source)

/-- Number of distinct stored documents whose content contains token `t`
(used to compare the spec's "document count" with the code's posting-list
length). -/
def docCount (docs : List Document) (t : String) : Nat :=
  (docs.filter fun d => (tokenize d.content).contains t).length

/-- The posting list of `t`, with `[]` for an absent entry. -/
def postingList (ix : Index) (t : String) : List Nat :=
  (lookupIdx ix t).getD []

/-- Every position stored in any posting list is a valid index into a store
of `n` documents. -/
def IndexBounded (n : Nat) (ix : Index) : Prop :=
  ∀ t ps, lookupIdx ix t = some ps → ∀ p ∈ ps, p < n

/-- The accumulated score of position `p` in the scores map (`0.0` for an
absent entry, matching `or_insert(0.0)`). -/
noncomputable def lookupScore (sc : List (Nat × ℝ)) (p : Nat) : ℝ :=
  ((sc.find? fun e => e.1 == p).map Prod.snd).getD 0

/-- The total contribution of one query token occurrence to the score of
position `p`: its IDF times the number of occurrences of `p` in its posting
list (`0` when the token is not in the index). -/
noncomputable def tokenContribution (r : RAGSystem) (t : String) (p : Nat) : ℝ :=
  match lookupIdx r.index t with
  | none => 0
  | some ps => idf r.documents.length ps.length * (ps.count p : ℝ)

/-- A one-document corpus whose document contains its single token once
(concrete instance used by several witnesses). -/
def docA : Document := ⟨"s/t", "t", "a", "s"⟩

/-- A three-document corpus in which token `"a"` occurs in one document
(four times) and token `"b"` occurs in two documents (once each). -/
def corpusIdf : List Document :=
  [⟨"u/d0", "d0", "a a a a", "u"⟩, ⟨"u/d1", "d1", "b", "u"⟩,
    ⟨"u/d2", "d2", "b", "u"⟩]

/-! ## Tokenizer lemmas -/

theorem char_toLower_toLower (c : Char) : c.toLower.toLower = c.toLower := by
  simp only [Char.toLower]
  by_cases h : c.toNat ≥ 65 ∧ c.toNat ≤ 90
  · have hv : (c.toNat + 32).isValidChar := Or.inl (by omega)
    have ht : (Char.ofNat (c.toNat + 32)).toNat = c.toNat + 32 := by
      simp only [Char.ofNat, Char.ofNatAux, Char.toNat, UInt32.toNat]
      have hv' : (c.val.toBitVec.toNat + 32).isValidChar := hv
      rw [dif_pos hv']
      rfl
    rw [if_pos h, ht, if_neg (by omega)]
  · rw [if_neg h, if_neg h]

theorem toLower_eq_self_of_mem_map {l : List Char} {c : Char}
    (hc : c ∈ l.map Char.toLower) : c.toLower = c := by
  obtain ⟨a, _, rfl⟩ := List.mem_map.mp hc
  exact char_toLower_toLower a

/-- Every element of every segment of `splitOnP p xs` fails `p` and occurs
in `xs`. -/
theorem of_mem_splitOnP {α : Type} {p : α → Bool} :
    ∀ {xs : List α} {s : List α}, s ∈ xs.splitOnP p →
      ∀ c ∈ s, p c = false ∧ c ∈ xs := by
  intro xs
  induction xs with
  | nil =>
    intro s hs c hc
    rw [List.splitOnP_nil, List.mem_singleton] at hs
    subst hs
    exact absurd hc (List.not_mem_nil c)
  | cons x xs ih =>
    intro s hs c hc
    rw [List.splitOnP_cons] at hs
    by_cases hpx : p x
    · rw [if_pos hpx] at hs
      rcases List.mem_cons.mp hs with rfl | hs
      · exact absurd hc (List.not_mem_nil c)
      · obtain ⟨hc1, hc2⟩ := ih hs c hc
        exact ⟨hc1, List.mem_cons_of_mem x hc2⟩
    · rw [if_neg hpx] at hs
      cases hsplit : xs.splitOnP p with
      | nil => exact absurd hsplit (List.splitOnP_ne_nil p xs)
      | cons hd tl =>
        rw [hsplit, List.modifyHead_cons] at hs
        rcases List.mem_cons.mp hs with rfl | hs
        · rcases List.mem_cons.mp hc with rfl | hc
          · exact ⟨Bool.not_eq_true _ ▸ hpx, List.mem_cons_self c xs⟩
          · obtain ⟨hc1, hc2⟩ :=
              ih (hsplit ▸ List.mem_cons_self hd tl) c hc
            exact ⟨hc1, List.mem_cons_of_mem x hc2⟩
        · obtain ⟨hc1, hc2⟩ := ih (hsplit ▸ List.mem_cons_of_mem hd hs) c hc
          exact ⟨hc1, List.mem_cons_of_mem x hc2⟩

/-- Tokens produced by `tokenize` are nonempty, alphanumeric, and fixed
points of `tokenize`. -/
theorem tokenize_sound {s t : String} (ht : t ∈ tokenize s) :
    t ≠ "" ∧ (∀ c ∈ t.toList, c.isAlphanum = true) ∧ tokenize t = [t] := by
  unfold tokenize at ht
  obtain ⟨htmem, htne⟩ := List.mem_filter.mp ht
  obtain ⟨cs, hcs, rfl⟩ := List.mem_map.mp htmem
  have hchars : ∀ c ∈ cs, (!c.isAlphanum) = false ∧ c ∈ s.toList.map Char.toLower :=
    fun c hc => of_mem_splitOnP hcs c hc
  have halnum : ∀ c ∈ cs, c.isAlphanum = true := by
    intro c hc
    simpa using (hchars c hc).1
  have hlower : ∀ c ∈ cs, c.toLower = c := fun c hc =>
    toLower_eq_self_of_mem_map (hchars c hc).2
  have htoList : (String.mk cs).toList = cs := rfl
  have hne : String.mk cs ≠ "" := by
    intro heq
    have h1 : (String.mk cs).isEmpty = true := (String.isEmpty_iff _).mpr heq
    rw [h1] at htne
    exact absurd htne (by decide)
  refine ⟨hne, ?_, ?_⟩
  · intro c hc
    exact halnum c (htoList ▸ hc)
  · unfold tokenize
    rw [htoList]
    have hmap : cs.map Char.toLower = cs :=
      (List.map_congr_left fun c hc => hlower c hc).trans (List.map_id' cs)
    rw [hmap, List.splitOnP_eq_single _ _ fun c hc hp => by simp [halnum c hc] at hp]
    simp only [List.map_cons, List.map_nil, List.filter_cons, htne, if_pos]
    rfl

/-! ## Inverted-index lemmas -/

theorem lookupIdx_eq_some_postingList {ix : Index} {t : String}
    (h : postingList ix t ≠ []) : lookupIdx ix t = some (postingList ix t) := by
  unfold postingList at *
  cases hlk : lookupIdx ix t with
  | none => rw [hlk] at h; exact absurd rfl h
  | some ps => rfl

theorem lookupIdx_insertPosting_self (i : Nat) (w : String) :
    ∀ ix : Index, lookupIdx (insertPosting i w ix) w
      = some (postingList ix w ++ [i]) := by
  intro ix
  induction ix with
  | nil => simp [insertPosting, lookupIdx, postingList, List.find?]
  | cons e rest ih =>
    obtain ⟨k, ps⟩ := e
    by_cases hk : k = w
    · subst hk
      simp [insertPosting, lookupIdx, postingList, List.find?]
    · simp only [insertPosting, if_neg hk]
      have hbeq : (k == w) = false := beq_eq_false_iff_ne.mpr hk
      simp only [lookupIdx, List.find?, hbeq] at ih ⊢
      simpa [postingList, lookupIdx, List.find?, hbeq] using ih

theorem lookupIdx_insertPosting_ne (i : Nat) {w t : String} (h : t ≠ w) :
    ∀ ix : Index, lookupIdx (insertPosting i w ix) t = lookupIdx ix t := by
  intro ix
  have hbeq : (w == t) = false := beq_eq_false_iff_ne.mpr (Ne.symm h)
  induction ix with
  | nil => simp [insertPosting, lookupIdx, List.find?, hbeq]
  | cons e rest ih =>
    obtain ⟨k, ps⟩ := e
    by_cases hk : k = w
    · subst hk
      simp [insertPosting, lookupIdx, List.find?, hbeq]
    · by_cases hkt : (k == t) = true
      · simp [insertPosting, if_neg hk, lookupIdx, List.find?, hkt]
      · simp only [Bool.not_eq_true] at hkt
        simp only [insertPosting, if_neg hk, lookupIdx, List.find?, hkt] at ih ⊢
        exact ih

theorem postingList_insertPosting_ne (i : Nat) {w t : String} (h : t ≠ w)
    (ix : Index) : postingList (insertPosting i w ix) t = postingList ix t := by
  unfold postingList
  rw [lookupIdx_insertPosting_ne i h]

/-- Indexing a word list at position `i` appends one copy of `i` to `t`'s
posting list per occurrence of `t` in the word list. -/
theorem postingList_indexWords (i : Nat) :
    ∀ (ws : List String) (ix : Index) (t : String),
      postingList (indexWords i ws ix) t
        = postingList ix t ++ List.replicate (ws.count t) i := by
  intro ws
  induction ws with
  | nil => simp [indexWords, List.count_nil]
  | cons w ws ih =>
    intro ix t
    have hstep : indexWords i (w :: ws) ix = indexWords i ws (insertPosting i w ix) := by
      simp [indexWords]
    rw [hstep, ih]
    by_cases ht : t = w
    · subst ht
      have hself : postingList (insertPosting i t ix) t
          = postingList ix t ++ [i] := by
        unfold postingList
        rw [lookupIdx_insertPosting_self]
        rfl
      rw [hself, List.count_cons_self, List.replicate_succ, List.append_assoc]
      rfl
    · rw [postingList_insertPosting_ne i ht,
        List.count_cons_of_ne (fun hc => ht hc) ws]

/-! ## Boundedness of indexed positions -/

theorem indexBounded_nil (n : Nat) : IndexBounded n [] := by
  intro t ps hlk
  simp [lookupIdx, List.find?] at hlk

theorem IndexBounded.mono {n m : Nat} {ix : Index} (h : IndexBounded n ix)
    (hnm : n ≤ m) : IndexBounded m ix :=
  fun t ps hlk p hp => lt_of_lt_of_le (h t ps hlk p hp) hnm

theorem IndexBounded.postingList {n : Nat} {ix : Index} (h : IndexBounded n ix)
    (t : String) : ∀ p ∈ RAG.postingList ix t, p < n := by
  intro p hp
  cases hlk : lookupIdx ix t with
  | none => rw [RAG.postingList, hlk] at hp; exact absurd hp (List.not_mem_nil p)
  | some ps =>
    rw [RAG.postingList, hlk] at hp
    exact h t ps hlk p hp

theorem IndexBounded.insertPosting {n i : Nat} {w : String} {ix : Index}
    (h : IndexBounded n ix) (hi : i < n) :
    IndexBounded n (insertPosting i w ix) := by
  intro t ps hlk p hp
  by_cases ht : t = w
  · subst ht
    rw [lookupIdx_insertPosting_self i t ix] at hlk
    cases hlk
    rcases List.mem_append.mp hp with hp | hp
    · exact h.postingList t p hp
    · rw [List.mem_singleton] at hp
      exact hp ▸ hi
  · rw [lookupIdx_insertPosting_ne i ht ix] at hlk
    exact h t ps hlk p hp

theorem IndexBounded.indexWords {n i : Nat} {ws : List String}
    (hi : i < n) :
    ∀ {ix : Index}, IndexBounded n ix → IndexBounded n (RAG.indexWords i ws ix) := by
  induction ws with
  | nil => intro ix h; exact h
  | cons w ws ih =>
    intro ix h
    have hstep : RAG.indexWords i (w :: ws) ix
        = RAG.indexWords i ws (RAG.insertPosting i w ix) := by
      simp [RAG.indexWords]
    rw [hstep]
    exact ih (h.insertPosting hi)

theorem indexBounded_foldl_enum (n : Nat) :
    ∀ (l : List (Nat × Document)) (ix : Index), IndexBounded n ix →
      (∀ e ∈ l, e.1 < n) →
      IndexBounded n
        (l.foldl (fun acc p => indexWords p.1 (tokenize p.2.content) acc) ix) := by
  intro l
  induction l with
  | nil => intro ix h _; exact h
  | cons e l ih =>
    intro ix h hl
    rw [List.foldl_cons]
    exact ih _ (IndexBounded.indexWords (hl e (List.mem_cons_self e l)) h)
      fun x hx => hl x (List.mem_cons_of_mem e hx)

theorem build_index_bounded (docs : List Document) :
    IndexBounded docs.length (build_index docs) := by
  unfold build_index
  exact indexBounded_foldl_enum docs.length docs.enum [] (indexBounded_nil _)
    (List.forall_mem_enum.mpr fun i h => h)

/-- The shape of the state after `add_document`. -/
theorem add_document_def (r : RAGSystem) (title content source : String) :
    (r.add_document title content source).documents
        = r.documents ++ [⟨source ++ "/" ++ title, title, content, source⟩]
      ∧ (r.add_document title content source).index
        = indexWords r.documents.length (tokenize content) r.index := by
  constructor
  · rfl
  · simp only [RAGSystem.add_document, List.length_append, List.length_singleton,
      Nat.add_sub_cancel]

/-- C9 invariant, by induction over reachable states. -/
theorem reachable_index_bounded {r : RAGSystem} (h : Reachable r) :
    IndexBounded r.documents.length r.index := by
  induction h with
  | init docs => exact build_index_bounded docs
  | add r title content source _ ih =>
    obtain ⟨hdocs, hix⟩ := add_document_def r title content source
    rw [hdocs, hix, List.length_append, List.length_singleton]
    exact IndexBounded.indexWords (Nat.lt_succ_self _) (ih.mono (Nat.le_succ _))

/-! ## Score-map lemmas -/

theorem lookupScore_addScore (q : Nat) (v : ℝ) :
    ∀ (sc : List (Nat × ℝ)) (p : Nat),
      lookupScore (addScore q v sc) p
        = lookupScore sc p + if p = q then v else 0 := by
  intro sc
  induction sc with
  | nil =>
    intro p
    by_cases h : p = q
    · subst h
      simp [addScore, lookupScore, List.find?]
    · have hbeq : (q == p) = false := beq_eq_false_iff_ne.mpr (Ne.symm h)
      simp [addScore, lookupScore, List.find?, hbeq, h]
  | cons e rest ih =>
    intro p
    obtain ⟨k, s⟩ := e
    by_cases hk : k = q
    · subst hk
      by_cases hp : p = k
      · subst hp
        simp [addScore, lookupScore, List.find?]
      · have hbeq : (k == p) = false := beq_eq_false_iff_ne.mpr (Ne.symm hp)
        simp [addScore, lookupScore, List.find?, hbeq, hp]
    · by_cases hp : (k == p) = true
      · have hpk : p = k := (beq_iff_eq.mp hp).symm
        have hpq : ¬p = q := fun hc => hk (hpk.symm.trans hc)
        simp [addScore, if_neg hk, lookupScore, List.find?, hp, hpq]
      · simp only [Bool.not_eq_true] at hp
        simp only [addScore, if_neg hk, lookupScore, List.find?, hp] at ih ⊢
        exact ih p

theorem lookupScore_foldl_addScore (v : ℝ) :
    ∀ (ps : List Nat) (sc : List (Nat × ℝ)) (p : Nat),
      lookupScore (ps.foldl (fun acc i => addScore i v acc) sc) p
        = lookupScore sc p + v * (ps.count p : ℝ) := by
  intro ps
  induction ps with
  | nil => intro sc p; simp [List.count_nil]
  | cons i ps ih =>
    intro sc p
    rw [List.foldl_cons, ih, lookupScore_addScore]
    by_cases h : p = i
    · subst h
      rw [List.count_cons_self, if_pos rfl]
      push_cast
      ring
    · rw [List.count_cons_of_ne (fun hc => h hc) ps, if_neg h]
      ring

theorem lookupScore_scoreStep (r : RAGSystem) (sc : List (Nat × ℝ))
    (t : String) (p : Nat) :
    lookupScore (scoreStep r sc t) p = lookupScore sc p + tokenContribution r t p := by
  unfold scoreStep tokenContribution
  cases lookupIdx r.index t with
  | none => simp
  | some ps => exact lookupScore_foldl_addScore _ ps sc p

theorem lookupScore_foldl_scoreStep (r : RAGSystem) (p : Nat) :
    ∀ (tokens : List String) (sc : List (Nat × ℝ)),
      lookupScore (tokens.foldl (scoreStep r) sc) p
        = lookupScore sc p + ((tokens.map fun t => tokenContribution r t p).sum) := by
  intro tokens
  induction tokens with
  | nil => intro sc; simp
  | cons t tokens ih =>
    intro sc
    rw [List.foldl_cons, ih, lookupScore_scoreStep, List.map_cons, List.sum_cons]
    ring

/-- Keys of the scores map: `addScore` only adds `i`. -/
theorem of_mem_addScore {i : Nat} {v : ℝ} :
    ∀ {sc : List (Nat × ℝ)} {e : Nat × ℝ}, e ∈ addScore i v sc →
      e.1 = i ∨ e.1 ∈ sc.map Prod.fst := by
  intro sc
  induction sc with
  | nil =>
    intro e he
    rw [addScore, List.mem_singleton] at he
    exact Or.inl (he ▸ rfl)
  | cons f rest ih =>
    intro e he
    obtain ⟨k, s⟩ := f
    by_cases hk : k = i
    · subst hk
      rw [addScore, if_pos rfl] at he
      rcases List.mem_cons.mp he with rfl | he
      · exact Or.inl rfl
      · exact Or.inr (List.mem_cons_of_mem _ (List.mem_map_of_mem Prod.fst he))
    · rw [addScore, if_neg hk] at he
      rcases List.mem_cons.mp he with rfl | he
      · exact Or.inr (List.mem_cons_self _ _)
      · rcases ih he with h | h
        · exact Or.inl h
        · exact Or.inr (List.mem_cons_of_mem _ h)

theorem of_mem_foldl_addScore {v : ℝ} :
    ∀ {ps : List Nat} {sc : List (Nat × ℝ)} {e : Nat × ℝ},
      e ∈ ps.foldl (fun acc i => addScore i v acc) sc →
      e.1 ∈ sc.map Prod.fst ∨ e.1 ∈ ps := by
  intro ps
  induction ps with
  | nil => intro sc e he; exact Or.inl (List.mem_map_of_mem Prod.fst he)
  | cons i ps ih =>
    intro sc e he
    rw [List.foldl_cons] at he
    rcases ih he with h | h
    · rw [List.mem_map] at h
      obtain ⟨f, hf, hfe⟩ := h
      rcases of_mem_addScore hf with h1 | h1
      · refine Or.inr ?_
        rw [← hfe, h1]
        exact List.mem_cons_self i ps
      · exact Or.inl (hfe ▸ h1)
    · exact Or.inr (List.mem_cons_of_mem i h)

/-- Every entry of the accumulated scores map originates from the posting
list of some processed token. -/
theorem of_mem_foldl_scoreStep {r : RAGSystem} :
    ∀ {tokens : List String} {sc : List (Nat × ℝ)} {e : Nat × ℝ},
      e ∈ tokens.foldl (scoreStep r) sc →
      e.1 ∈ sc.map Prod.fst ∨
        ∃ t ∈ tokens, ∃ ps, lookupIdx r.index t = some ps ∧ e.1 ∈ ps := by
  intro tokens
  induction tokens with
  | nil => intro sc e he; exact Or.inl (List.mem_map_of_mem Prod.fst he)
  | cons t tokens ih =>
    intro sc e he
    rw [List.foldl_cons] at he
    rcases ih he with h | h
    · rw [List.mem_map] at h
      obtain ⟨f, hf, hfe⟩ := h
      unfold scoreStep at hf
      cases hlk : lookupIdx r.index t with
      | none =>
        rw [hlk] at hf
        exact Or.inl (hfe ▸ List.mem_map_of_mem Prod.fst hf)
      | some ps =>
        rw [hlk] at hf
        rcases of_mem_foldl_addScore hf with h1 | h1
        · exact Or.inl (hfe ▸ h1)
        · exact Or.inr ⟨t, List.mem_cons_self t tokens, ps, hlk, hfe ▸ h1⟩
    · obtain ⟨t', ht', ps, hlk, hp⟩ := h
      exact Or.inr ⟨t', List.mem_cons_of_mem t ht', ps, hlk, hp⟩

theorem of_mem_accumulateScores {r : RAGSystem} {tokens : List String}
    {e : Nat × ℝ} (he : e ∈ accumulateScores r tokens) :
    ∃ t ∈ tokens, ∃ ps, lookupIdx r.index t = some ps ∧ e.1 ∈ ps := by
  rcases @of_mem_foldl_scoreStep r tokens [] e he with h | h
  · simp at h
  · exact h

/-- A fully-unmatched token list leaves the scores map untouched. -/
theorem foldl_scoreStep_unmatched {r : RAGSystem} :
    ∀ {tokens : List String} (sc : List (Nat × ℝ)),
      (∀ t ∈ tokens, lookupIdx r.index t = none) →
      tokens.foldl (scoreStep r) sc = sc := by
  intro tokens
  induction tokens with
  | nil => intro sc _; rfl
  | cons t tokens ih =>
    intro sc h
    rw [List.foldl_cons]
    have hstep : scoreStep r sc t = sc := by
      unfold scoreStep
      rw [h t (List.mem_cons_self t tokens)]
    rw [hstep]
    exact ih sc fun u hu => h u (List.mem_cons_of_mem t hu)

/-! ## Result materialisation and search lemmas -/

theorem toResults_eq_some {docs : List Document} :
    ∀ {sc : List (Nat × ℝ)}, (∀ e ∈ sc, e.1 < docs.length) →
      ∃ res, toResults docs sc = some res := by
  intro sc
  induction sc with
  | nil => intro _; exact ⟨[], rfl⟩
  | cons e rest ih =>
    intro h
    obtain ⟨acc, hacc⟩ := ih fun x hx => h x (List.mem_cons_of_mem e hx)
    have hget : docs.get? e.1 = some (docs.get ⟨e.1, h e (List.mem_cons_self e rest)⟩) :=
      List.get?_eq_get _
    refine ⟨⟨docs.get ⟨e.1, h e (List.mem_cons_self e rest)⟩, e.2⟩ :: acc, ?_⟩
    simp only [toResults, hget, hacc]

theorem of_mem_toResults {docs : List Document} :
    ∀ {sc : List (Nat × ℝ)} {res : List SearchResult},
      toResults docs sc = some res → ∀ x ∈ res,
      ∃ e ∈ sc, docs.get? e.1 = some x.document ∧ x.score = e.2 := by
  intro sc
  induction sc with
  | nil =>
    intro res h x hx
    rw [toResults] at h
    cases h
    exact absurd hx (List.not_mem_nil x)
  | cons e rest ih =>
    intro res h x hx
    rw [toResults] at h
    cases hget : docs.get? e.1 with
    | none => rw [hget] at h; exact absurd h (by simp)
    | some d =>
      rw [hget] at h
      cases hrec : toResults docs rest with
      | none => rw [hrec] at h; exact absurd h (by simp)
      | some acc =>
        rw [hrec] at h
        simp only [Option.some.injEq] at h
        subst h
        rcases List.mem_cons.mp hx with rfl | hx
        · exact ⟨e, List.mem_cons_self e rest, hget, rfl⟩
        · obtain ⟨f, hf, hfd, hfs⟩ := ih hrec x hx
          exact ⟨f, List.mem_cons_of_mem e hf, hfd, hfs⟩

/-- Every result surfaced by `search` carries the document and accumulated
score of some entry of the scores map. -/
theorem of_mem_search {r : RAGSystem} {q : String} {k : Nat}
    {res : List SearchResult} (h : r.search q k = some res) :
    ∀ x ∈ res, ∃ e ∈ accumulateScores r (tokenize q),
      r.documents.get? e.1 = some x.document ∧ x.score = e.2 := by
  intro x hx
  unfold RAGSystem.search at h
  cases htr : toResults r.documents (accumulateScores r (tokenize q)) with
  | none => rw [htr] at h; exact absurd h (by simp)
  | some results =>
    rw [htr] at h
    simp only [Option.some.injEq] at h
    subst h
    have hx1 : x ∈ results.insertionSort scoreGE :=
      (List.take_sublist k _).mem hx
    have hx2 : x ∈ results :=
      (List.perm_insertionSort scoreGE results).mem_iff.mp hx1
    exact of_mem_toResults htr x hx2

/-! ## Claim theorems -/

/-- C1: for every corpus state and query, the accumulated score that
`search` assigns to position `p` is the sum, over every query token
occurrence (tokens not deduplicated), of the token's contribution
`idf(t) * (number of occurrences of p in t's posting list)`, where
`idf(t) = ln(document_count / posting_list_length)` and absent tokens
contribute `0`; repeating a token `m` times in a document or `k` times in
the query scales its contribution by `m` resp. `k` through the count and
the repeated summand. -/
theorem search_score_is_idf_weighted_sum (r : RAGSystem) (query : String)
    (p : Nat) :
    lookupScore (accumulateScores r (tokenize query)) p
      = ((tokenize query).map fun t => tokenContribution r t p).sum := by
  unfold accumulateScores
  rw [lookupScore_foldl_scoreStep]
  simp [lookupScore]

/-- C2: `tokenize` never returns an empty token, returns only alphanumeric
tokens which are fixed points of `tokenize` (idempotence on normalized
input), and `tokenize "Uniswap-V2 Router!" = ["uniswap","v2","router"]`. -/
theorem tokenize_normalizes_claim :
    (∀ s t, t ∈ tokenize s →
      t ≠ "" ∧ (∀ c ∈ t.toList, c.isAlphanum = true) ∧ tokenize t = [t]) ∧
    tokenize "Uniswap-V2 Router!" = ["uniswap", "v2", "router"] :=
  ⟨fun _ _ ht => tokenize_sound ht, by decide⟩

/-- Witness for C2 at the spec's example token. -/
theorem tokenize_normalizes_claim_witness :
    "uniswap" ∈ tokenize "Uniswap-V2 Router!" ∧
      ("uniswap" ≠ "" ∧ (∀ c ∈ "uniswap".toList, c.isAlphanum = true) ∧
        tokenize "uniswap" = ["uniswap"]) :=
  ⟨by decide, tokenize_normalizes_claim.1 "Uniswap-V2 Router!" "uniswap" (by decide)⟩

/-- C3: whenever `search` returns a result list, its length is at most the
limit and it is sorted in descending order of score. -/
theorem search_limit_sorted_claim (r : RAGSystem) (query : String) (k : Nat)
    (res : List SearchResult) (h : r.search query k = some res) :
    res.length ≤ k ∧ res.Sorted scoreGE := by
  unfold RAGSystem.search at h
  cases htr : toResults r.documents (accumulateScores r (tokenize query)) with
  | none => rw [htr] at h; exact absurd h (by simp)
  | some results =>
    rw [htr] at h
    simp only [Option.some.injEq] at h
    subst h
    constructor
    · rw [List.length_take]
      exact min_le_left _ _
    · exact List.Pairwise.sublist (List.take_sublist k _)
        (List.sorted_insertionSort scoreGE results)

/-- Witness for C3 on a concrete one-document corpus. -/
theorem search_limit_sorted_claim_witness :
    (RAGSystem.ofDocuments [docA]).search "a" 5 = some [⟨docA, 0 + idf 1 1⟩] ∧
      (([⟨docA, 0 + idf 1 1⟩] : List SearchResult).length ≤ 5 ∧
        ([⟨docA, 0 + idf 1 1⟩] : List SearchResult).Sorted scoreGE) :=
  ⟨rfl, search_limit_sorted_claim (RAGSystem.ofDocuments [docA]) "a" 5
    [⟨docA, 0 + idf 1 1⟩] rfl⟩

/-- C4 counterexample: on the one-document corpus `[docA]`, searching for
its only token returns that document with accumulated score exactly `0`
(its IDF is `ln(1/1) = 0`), so a result with zero accumulated score is
returned: the code does not filter by nonzero score. -/
theorem search_zero_score_counterexample :
    ∃ res, (RAGSystem.ofDocuments [docA]).search "a" 5 = some res ∧
      ∃ x ∈ res, x.score = 0 := by
  refine ⟨[⟨docA, 0 + idf 1 1⟩], rfl, ⟨docA, 0 + idf 1 1⟩,
    List.mem_singleton_self _, ?_⟩
  show (0 : ℝ) + idf 1 1 = 0
  simp [idf, Real.log_one]

/-- C4 amended: every returned result's document occupies a store position
that occurs in the posting list of some query token (its score entry
exists); a zero accumulated score is not excluded. -/
theorem search_entry_origin_claim (r : RAGSystem) (query : String) (k : Nat)
    (res : List SearchResult) (h : r.search query k = some res) :
    ∀ x ∈ res, ∃ t ∈ tokenize query, ∃ ps, lookupIdx r.index t = some ps ∧
      ∃ p ∈ ps, r.documents.get? p = some x.document := by
  intro x hx
  obtain ⟨e, he, hget, _⟩ := of_mem_search h x hx
  obtain ⟨t, ht, ps, hlk, hp⟩ := of_mem_accumulateScores he
  exact ⟨t, ht, ps, hlk, e.1, hp, hget⟩

/-- Witness for the amended C4 on the one-document corpus. -/
theorem search_entry_origin_claim_witness :
    ((RAGSystem.ofDocuments [docA]).search "a" 5 = some [⟨docA, 0 + idf 1 1⟩] ∧
      (⟨docA, 0 + idf 1 1⟩ : SearchResult) ∈
        ([⟨docA, 0 + idf 1 1⟩] : List SearchResult)) ∧
    ∃ t ∈ tokenize "a", ∃ ps,
      lookupIdx (RAGSystem.ofDocuments [docA]).index t = some ps ∧
      ∃ p ∈ ps, (RAGSystem.ofDocuments [docA]).documents.get? p
        = some (⟨docA, 0 + idf 1 1⟩ : SearchResult).document :=
  ⟨⟨rfl, List.mem_singleton_self _⟩,
    search_entry_origin_claim (RAGSystem.ofDocuments [docA]) "a" 5
      [⟨docA, 0 + idf 1 1⟩] rfl ⟨docA, 0 + idf 1 1⟩ (List.mem_singleton_self _)⟩

/-- C5 counterexample: in the corpus `corpusIdf`, token `"a"` occurs in
strictly fewer documents than `"b"`, yet its per-occurrence contribution
(the IDF computed by `search` from the posting-list length, which counts
occurrences rather than documents) is strictly smaller, refuting the
claimed document-count monotonicity. -/
theorem idf_document_count_counterexample :
    docCount corpusIdf "a" < docCount corpusIdf "b" ∧
    ∃ psa psb,
      lookupIdx (RAGSystem.ofDocuments corpusIdf).index "a" = some psa ∧
      lookupIdx (RAGSystem.ofDocuments corpusIdf).index "b" = some psb ∧
      idf (RAGSystem.ofDocuments corpusIdf).documents.length psa.length
        < idf (RAGSystem.ofDocuments corpusIdf).documents.length psb.length := by
  refine ⟨by decide, [0, 0, 0, 0], [1, 2], rfl, rfl, ?_⟩
  unfold idf
  have h1 : (0 : ℝ) < ((3 : ℕ) : ℝ) / ((4 : ℕ) : ℝ) := by norm_num
  have h2 : ((3 : ℕ) : ℝ) / ((4 : ℕ) : ℝ) < ((3 : ℕ) : ℝ) / ((2 : ℕ) : ℝ) := by
    norm_num
  exact Real.log_lt_log h1 h2

/-- C5 amended: the IDF weight used by `search` is antitone in the
posting-list length (total occurrence count): a token with a shorter,
nonempty posting list contributes at least as much per occurrence as one
with a longer posting list. -/
theorem idf_posting_length_antitone (r : RAGSystem) (t1 t2 : String)
    (ps1 ps2 : List Nat) (h1 : lookupIdx r.index t1 = some ps1)
    (h2 : lookupIdx r.index t2 = some ps2) (hpos : 0 < ps1.length)
    (hle : ps1.length ≤ ps2.length) :
    idf r.documents.length ps2.length ≤ idf r.documents.length ps1.length := by
  unfold idf
  rcases Nat.eq_zero_or_pos r.documents.length with hn | hn
  · rw [hn]
    simp
  · apply Real.log_le_log
    · exact div_pos (by exact_mod_cast hn)
        (by exact_mod_cast lt_of_lt_of_le hpos hle)
    · have hc1 : (0 : ℝ) < (ps1.length : ℝ) := by exact_mod_cast hpos
      have hc2 : (ps1.length : ℝ) ≤ (ps2.length : ℝ) := by exact_mod_cast hle
      gcongr

/-- Witness for the amended C5 on `corpusIdf`. -/
theorem idf_posting_length_antitone_witness :
    (lookupIdx (RAGSystem.ofDocuments corpusIdf).index "b" = some [1, 2] ∧
      lookupIdx (RAGSystem.ofDocuments corpusIdf).index "a" = some [0, 0, 0, 0] ∧
      0 < ([1, 2] : List Nat).length ∧
      ([1, 2] : List Nat).length ≤ ([0, 0, 0, 0] : List Nat).length) ∧
    idf (RAGSystem.ofDocuments corpusIdf).documents.length
        ([0, 0, 0, 0] : List Nat).length
      ≤ idf (RAGSystem.ofDocuments corpusIdf).documents.length
        ([1, 2] : List Nat).length :=
  ⟨⟨rfl, rfl, by decide, by decide⟩,
    idf_posting_length_antitone (RAGSystem.ofDocuments corpusIdf) "b" "a"
      [1, 2] [0, 0, 0, 0] rfl rfl (by decide) (by decide)⟩

/-- C6: after `add_document(title, content, source)` on a state holding no
document with id `source ++ "/" ++ title`, the façade's `get_document` on
that id returns exactly the inserted title/content/source with the fixed
score `1.0`. -/
theorem add_get_roundtrip_claim (r : RAGSystem) (title content source : String)
    (hfresh : ∀ d ∈ r.documents, d.id ≠ source ++ "/" ++ title) :
    RAGService.get_document (r.add_document title content source)
        (source ++ "/" ++ title)
      = some ⟨source ++ "/" ++ title, title, content, source, 1.0⟩ := by
  have hdocs := (add_document_def r title content source).1
  have hnone : r.documents.find?
      (fun doc => doc.id == source ++ "/" ++ title) = none :=
    List.find?_eq_none.mpr fun d hd => by simp [hfresh d hd]
  have hfind : (r.add_document title content source).get_document_by_id
      (source ++ "/" ++ title)
      = some ⟨source ++ "/" ++ title, title, content, source⟩ := by
    unfold RAGSystem.get_document_by_id
    rw [hdocs, List.find?_append, hnone]
    simp [List.find?]
  unfold RAGService.get_document
  rw [hfind]

/-- Witness for C6 starting from the empty corpus. -/
theorem add_get_roundtrip_claim_witness :
    (∀ d ∈ (RAGSystem.ofDocuments []).documents, d.id ≠ "src" ++ "/" ++ "X") ∧
    RAGService.get_document
        ((RAGSystem.ofDocuments []).add_document "X" "content" "src")
        ("src" ++ "/" ++ "X")
      = some ⟨"src" ++ "/" ++ "X", "X", "content", "src", 1.0⟩ :=
  ⟨fun d hd => absurd hd (List.not_mem_nil d),
    add_get_roundtrip_claim (RAGSystem.ofDocuments []) "X" "content" "src"
      fun d hd => absurd hd (List.not_mem_nil d)⟩

/-- C8: the façade's document search ignores the `source` field of the
query entirely: two queries differing only in `source` (absent or present)
produce identical results. -/
theorem source_filter_ignored_claim (r : RAGSystem) (query : String)
    (limit : Nat) (s1 s2 : Option String) :
    RAGService.search_documents r ⟨query, limit, s1⟩
      = RAGService.search_documents r ⟨query, limit, s2⟩ := rfl

/-- C7: inserting two documents with the same title and source appends two
distinct store positions holding the two contents; `get_document_by_id` on
the shared id returns the first-inserted one; and any token common to both
contents has a posting list containing both positions, so `search` can
accumulate contributions from both. -/
theorem duplicate_insertion_claim (r : RAGSystem) (title c1 c2 source : String)
    (hfresh : ∀ d ∈ r.documents, d.id ≠ source ++ "/" ++ title)
    (t : String) (ht1 : t ∈ tokenize c1) (ht2 : t ∈ tokenize c2) :
    ((r.add_document title c1 source).add_document title c2 source).documents.length
        = r.documents.length + 2
    ∧ ((r.add_document title c1 source).add_document title c2 source).documents.get?
        r.documents.length = some ⟨source ++ "/" ++ title, title, c1, source⟩
    ∧ ((r.add_document title c1 source).add_document title c2 source).documents.get?
        (r.documents.length + 1) = some ⟨source ++ "/" ++ title, title, c2, source⟩
    ∧ ((r.add_document title c1 source).add_document title c2 source).get_document_by_id
        (source ++ "/" ++ title) = some ⟨source ++ "/" ++ title, title, c1, source⟩
    ∧ ∃ ps,
        lookupIdx ((r.add_document title c1 source).add_document title c2 source).index t
          = some ps ∧ r.documents.length ∈ ps ∧ r.documents.length + 1 ∈ ps := by
  obtain ⟨hd1, hi1⟩ := add_document_def r title c1 source
  obtain ⟨hd2, hi2⟩ := add_document_def (r.add_document title c1 source) title c2 source
  have hlen1 : (r.add_document title c1 source).documents.length
      = r.documents.length + 1 := by
    rw [hd1, List.length_append, List.length_singleton]
  refine ⟨?_, ?_, ?_, ?_, ?_⟩
  · rw [hd2, List.length_append, List.length_singleton, hlen1]
  · rw [hd2, List.get?_append (by rw [hlen1]; exact Nat.lt_succ_self _), hd1]
    exact List.get?_concat_length r.documents _
  · rw [hd2, ← hlen1]
    exact List.get?_concat_length _ _
  · have hnone : r.documents.find?
        (fun doc => doc.id == source ++ "/" ++ title) = none :=
      List.find?_eq_none.mpr fun d hd => by simp [hfresh d hd]
    unfold RAGSystem.get_document_by_id
    rw [hd2, hd1, List.find?_append, List.find?_append, hnone]
    simp [List.find?]
  · have hpl : postingList
        ((r.add_document title c1 source).add_document title c2 source).index t
        = postingList r.index t
          ++ List.replicate ((tokenize c1).count t) r.documents.length
          ++ List.replicate ((tokenize c2).count t) (r.documents.length + 1) := by
      rw [hi2, postingList_indexWords, hi1, postingList_indexWords, hlen1]
    have hc1 : (tokenize c1).count t ≠ 0 :=
      Nat.pos_iff_ne_zero.mp (List.count_pos_iff.mpr ht1)
    have hc2 : (tokenize c2).count t ≠ 0 :=
      Nat.pos_iff_ne_zero.mp (List.count_pos_iff.mpr ht2)
    have hmem1 : r.documents.length ∈ postingList
        ((r.add_document title c1 source).add_document title c2 source).index t := by
      rw [hpl]
      exact List.mem_append_left _
        (List.mem_append_right _ (List.mem_replicate.mpr ⟨hc1, rfl⟩))
    have hmem2 : r.documents.length + 1 ∈ postingList
        ((r.add_document title c1 source).add_document title c2 source).index t := by
      rw [hpl]
      exact List.mem_append_right _ (List.mem_replicate.mpr ⟨hc2, rfl⟩)
    exact ⟨_, lookupIdx_eq_some_postingList (List.ne_nil_of_mem hmem1),
      hmem1, hmem2⟩

/-- Witness for C7 with two same-id documents over the empty corpus and the
shared token `"x"`. -/
theorem duplicate_insertion_claim_witness :
    ((∀ d ∈ (RAGSystem.ofDocuments []).documents, d.id ≠ "s" ++ "/" ++ "T") ∧
      "x" ∈ tokenize "x y" ∧ "x" ∈ tokenize "x z") ∧
    ((((RAGSystem.ofDocuments []).add_document "T" "x y" "s").add_document
          "T" "x z" "s").documents.length
        = (RAGSystem.ofDocuments []).documents.length + 2
      ∧ (((RAGSystem.ofDocuments []).add_document "T" "x y" "s").add_document
          "T" "x z" "s").documents.get? (RAGSystem.ofDocuments []).documents.length
        = some ⟨"s" ++ "/" ++ "T", "T", "x y", "s"⟩
      ∧ (((RAGSystem.ofDocuments []).add_document "T" "x y" "s").add_document
          "T" "x z" "s").documents.get?
          ((RAGSystem.ofDocuments []).documents.length + 1)
        = some ⟨"s" ++ "/" ++ "T", "T", "x z", "s"⟩
      ∧ (((RAGSystem.ofDocuments []).add_document "T" "x y" "s").add_document
          "T" "x z" "s").get_document_by_id ("s" ++ "/" ++ "T")
        = some ⟨"s" ++ "/" ++ "T", "T", "x y", "s"⟩
      ∧ ∃ ps,
          lookupIdx (((RAGSystem.ofDocuments []).add_document "T" "x y" "s").add_document
            "T" "x z" "s").index "x"
            = some ps ∧ (RAGSystem.ofDocuments []).documents.length ∈ ps ∧
              (RAGSystem.ofDocuments []).documents.length + 1 ∈ ps) :=
  ⟨⟨fun d hd => absurd hd (List.not_mem_nil d), by decide, by decide⟩,
    duplicate_insertion_claim (RAGSystem.ofDocuments []) "T" "x y" "x z" "s"
      (fun d hd => absurd hd (List.not_mem_nil d)) "x" (by decide) (by decide)⟩

/-- C9: in every reachable state, every position in every posting list of
the inverted index is a valid index into the document store. -/
theorem index_positions_valid_claim {r : RAGSystem} (h : Reachable r) :
    ∀ t ps, lookupIdx r.index t = some ps → ∀ p ∈ ps, p < r.documents.length :=
  reachable_index_bounded h

/-- Witness for C9 on the one-document corpus. -/
theorem index_positions_valid_claim_witness :
    (lookupIdx (RAGSystem.ofDocuments [docA]).index "a" = some [0] ∧
      0 ∈ ([0] : List Nat)) ∧
    0 < (RAGSystem.ofDocuments [docA]).documents.length :=
  ⟨⟨rfl, List.mem_singleton_self 0⟩,
    index_positions_valid_claim (Reachable.init [docA]) "a" [0] rfl 0
      (List.mem_singleton_self 0)⟩

/-- C10: on every reachable state, `search` is total (the position lookup
is always in bounds and the model's comparator is total, so it returns a
result list, never the `none` that models a panic), and a fully-unmatched
query returns the empty list. -/
theorem search_total_claim {r : RAGSystem} (h : Reachable r) (query : String)
    (k : Nat) :
    (∃ res, r.search query k = some res) ∧
      ((∀ t ∈ tokenize query, lookupIdx r.index t = none) →
        r.search query k = some []) := by
  have hb := reachable_index_bounded h
  constructor
  · have hkeys : ∀ e ∈ accumulateScores r (tokenize query),
        e.1 < r.documents.length := by
      intro e he
      obtain ⟨t, _, ps, hlk, hp⟩ := of_mem_accumulateScores he
      exact hb t ps hlk e.1 hp
    obtain ⟨res, hres⟩ := toResults_eq_some hkeys
    refine ⟨(res.insertionSort scoreGE).take k, ?_⟩
    unfold RAGSystem.search
    rw [hres]
  · intro hnone
    have hacc : accumulateScores r (tokenize query) = [] :=
      foldl_scoreStep_unmatched [] hnone
    unfold RAGSystem.search
    rw [hacc]
    simp [toResults, List.insertionSort]

/-- Witness for C10 on the empty corpus with an unmatched query. -/
theorem search_total_claim_witness :
    (∀ t ∈ tokenize "zzzznomatch",
      lookupIdx (RAGSystem.ofDocuments []).index t = none) ∧
    (RAGSystem.ofDocuments []).search "zzzznomatch" 5 = some [] :=
  ⟨by decide,
    (search_total_claim (Reachable.init []) "zzzznomatch" 5).2 (by decide)⟩

end RAG
